import Mathlib

/-!
# A shallow embedding of `chrono::utility::to_duration`

The repository consists of the single scanning/accumulation routine
`to_duration` in `src/chrono/utility/to_duration.hpp` (plus thin adapter
overloads and tests).  `to_duration` walks the input left to right; each
iteration reads an optional sign, a run of decimal digits (accumulated with
the source's inverted-sign trick `n = n * 10 - (c - '0')`), and a unit
suffix (`ns`, `us`, `ms`, `s`, `m`, `h`, with a one-character lookahead to
tell `m` from `ms`), converts the signed count into the caller's target
resolution with `std::chrono::duration_cast` (exact rational scaling,
truncated toward zero) and adds it to the accumulator.  Malformed input
raises `std::invalid_argument("invalid input string")`.

Embedding choices:

* Characters are `Char`, input is a `List Char`, the cursor is the
  remaining suffix of the input.
* Duration reps are unbounded `Int` (overflow behaviour of the C++ rep is
  explicitly unspecified by the design notes).
* The target resolution is an integer number of nanoseconds per tick
  (`res`); every source unit is an integral number of nanoseconds, and
  `duration_cast` into the target is `Int.tdiv (n * rat) res` — exact
  multiplication followed by truncation toward zero, which agrees with
  `duration_cast`'s reduced-fraction computation.
* Failure is `Except String` carrying the source's single message.
* The C++ dereferences the iterator at the end position without a bounds
  check (after the digit run, and in the two-character lookaheads).  On the
  `std::string` buffers the tests use, that read yields the terminating
  `'\x00'`, which matches no digit, no unit and no `'s'`.  `readUnit`
  embeds exactly that behaviour: a read past the end behaves as a
  mismatching character.  `readUnitPad` is a second embedding in which the
  out-of-bounds read returns a chosen pad character, used to show that the
  behaviour on truncated inputs depends on what that unchecked read
  returns.
* The `while` loop is embedded with an explicit iteration budget
  (`parseLoopFuel`); each iteration consumes at least one character
  (`parseStep_ok_length`), so a budget of `length + 1` is never exhausted
  (`parseLoopFuel_ne_none`), and `toDuration` runs the loop on that budget.
-/

namespace ChronoUtility

/-- The tick of `std::chrono::nanoseconds`, in nanoseconds. -/
def nsRat : Int := 1

/-- The tick of `std::chrono::microseconds`, in nanoseconds. -/
def usRat : Int := 1000

/-- The tick of `std::chrono::milliseconds`, in nanoseconds. -/
def msRat : Int := 1000000

/-- The tick of `std::chrono::seconds`, in nanoseconds. -/
def secRat : Int := 1000000000

/-- The tick of `std::chrono::minutes`, in nanoseconds. -/
def minRat : Int := 60000000000

/-- The tick of `std::chrono::hours`, in nanoseconds. -/
def hourRat : Int := 3600000000000

/-- The message of the single `std::invalid_argument` the source throws. -/
def invalidMsg : String := "invalid input string"

/-- The source's digit test `*it >= '0' && *it <= '9'` (numeric character
comparison). -/
def isDigitChar (c : Char) : Bool :=
  '0'.toNat ≤ c.toNat && c.toNat ≤ '9'.toNat

/-- The source's `*it - '0'`. -/
def digitVal (c : Char) : Int :=
  (c.toNat : Int) - ('0'.toNat : Int)

/-- The inner digit loop: `while (it != last) { if (digit) n = n * 10 - (*it - '0'); else break; it++; }`.
Returns the accumulated (inverted-sign) count and the unconsumed suffix. -/
def parseDigits : Int → List Char → Int × List Char
  | n, [] => (n, [])
  | n, c :: cs =>
    if isDigitChar c then parseDigits (n * 10 - digitVal c) cs else (n, c :: cs)

/-- The conversion `std::chrono::duration_cast` of `n` ticks of `rat` nanoseconds into the
target resolution of `res` nanoseconds: exact scaling, truncated toward
zero. -/
def durCast (n rat res : Int) : Int :=
  Int.tdiv (n * rat) res

/-- The `switch (*it)` unit dispatch, including the unchecked second-character
lookaheads `*(++it) == 's'`.  A read at the end position behaves as a
character matching neither a unit nor `'s'` (the `'\x00'` the C++ reads on a
`std::string` buffer):

* `'n'` / `'u'` must be followed by `'s'`, else `throw`;
* `'m'` followed by `'s'` is milliseconds; otherwise minutes, and the
  lookahead character is pushed back (`it--`) — it stays in the returned
  suffix;
* `'s'` / `'h'` are single-character units;
* anything else (including a read at the end position) throws. -/
def readUnit (res n : Int) : List Char → Except String (Int × List Char)
  | [] => .error invalidMsg
  | c :: rest =>
    if c = 'n' then
      match rest with
      | c2 :: rest2 =>
        if c2 = 's' then .ok (durCast n nsRat res, rest2) else .error invalidMsg
      | [] => .error invalidMsg
    else if c = 'u' then
      match rest with
      | c2 :: rest2 =>
        if c2 = 's' then .ok (durCast n usRat res, rest2) else .error invalidMsg
      | [] => .error invalidMsg
    else if c = 'm' then
      match rest with
      | c2 :: rest2 =>
        if c2 = 's' then .ok (durCast n msRat res, rest2)
        else .ok (durCast n minRat res, c2 :: rest2)
      | [] => .ok (durCast n minRat res, [])
    else if c = 's' then .ok (durCast n secRat res, rest)
    else if c = 'h' then .ok (durCast n hourRat res, rest)
    else .error invalidMsg

/-- One iteration of the outer `while (it != last)` loop, entered with the
head character `c` in hand: optional sign, digit run, sign application
(`n = neg ? n : -n` on the inverted-sign accumulator), unit dispatch.
Returns the component's converted value and the unconsumed suffix. -/
def parseStep (res : Int) (c : Char) (cs : List Char) : Except String (Int × List Char) :=
  let neg := c == '-'
  let body := if c == '+' || c == '-' then cs else c :: cs
  let p := parseDigits 0 body
  let n := if neg then p.1 else -p.1
  readUnit res n p.2

/-- The outer loop with an explicit iteration budget; `none` means the
budget ran out (never happens from a budget above the input length,
`parseLoopFuel_ne_none`). -/
def parseLoopFuel (res : Int) : Nat → Int → List Char → Option (Except String Int)
  | 0, _, _ => none
  | _ + 1, acc, [] => some (.ok acc)
  | fuel + 1, acc, c :: cs =>
    match parseStep res c cs with
    | .error e => some (.error e)
    | .ok p => parseLoopFuel res fuel (acc + p.1) p.2

/-- The outer loop from a given accumulator, on the always-sufficient budget
`length + 1`. -/
def runLoop (res acc : Int) (s : List Char) : Except String Int :=
  (parseLoopFuel res (s.length + 1) acc s).getD (.error invalidMsg)

/-- The routine `chrono::utility::to_duration`: parse `s` into a count of ticks of
`res` nanoseconds. -/
def toDuration (res : Int) (s : List Char) : Except String Int :=
  runLoop res 0 s

/-- Reading one character with a pad character standing for the value of an
out-of-bounds read. -/
def hdPad (pad : Char) : List Char → Char
  | [] => pad
  | c :: _ => c

/-- The unit dispatch of `readUnit`, in the embedding where a read past the
end of the input returns the pad character `pad` instead of acting as a
mismatch. -/
def readUnitPad (pad : Char) (res n : Int) (s : List Char) : Except String (Int × List Char) :=
  let c := hdPad pad s
  let rest := s.tail
  if c = 'n' then
    if hdPad pad rest = 's' then .ok (durCast n nsRat res, rest.tail) else .error invalidMsg
  else if c = 'u' then
    if hdPad pad rest = 's' then .ok (durCast n usRat res, rest.tail) else .error invalidMsg
  else if c = 'm' then
    if hdPad pad rest = 's' then .ok (durCast n msRat res, rest.tail)
    else .ok (durCast n minRat res, rest)
  else if c = 's' then .ok (durCast n secRat res, rest)
  else if c = 'h' then .ok (durCast n hourRat res, rest)
  else .error invalidMsg

/-- One loop iteration in the pad embedding. -/
def parseStepPad (pad : Char) (res : Int) (c : Char) (cs : List Char) :
    Except String (Int × List Char) :=
  let neg := c == '-'
  let body := if c == '+' || c == '-' then cs else c :: cs
  let p := parseDigits 0 body
  let n := if neg then p.1 else -p.1
  readUnitPad pad res n p.2

/-- The outer loop in the pad embedding. -/
def parseLoopPadFuel (pad : Char) (res : Int) : Nat → Int → List Char → Option (Except String Int)
  | 0, _, _ => none
  | _ + 1, acc, [] => some (.ok acc)
  | fuel + 1, acc, c :: cs =>
    match parseStepPad pad res c cs with
    | .error e => some (.error e)
    | .ok p => parseLoopPadFuel pad res fuel (acc + p.1) p.2

/-- The routine `to_duration` in the embedding where every read past the end of the
input returns `pad`. -/
def toDurationPad (pad : Char) (res : Int) (s : List Char) : Except String Int :=
  (parseLoopPadFuel pad res (s.length + 1) 0 s).getD (.error invalidMsg)

/-- The six unit kinds the grammar recognises. -/
inductive TimeUnit
  | ns
  | us
  | ms
  | sec
  | min
  | hour

/-- Each unit's tick, in nanoseconds. -/
def uRat : TimeUnit → Int
  | .ns => nsRat
  | .us => usRat
  | .ms => msRat
  | .sec => secRat
  | .min => minRat
  | .hour => hourRat

/-- Each unit's textual suffix. -/
def uSuffix : TimeUnit → List Char
  | .ns => ['n', 's']
  | .us => ['u', 's']
  | .ms => ['m', 's']
  | .sec => ['s']
  | .min => ['m']
  | .hour => ['h']

/-- The standard base-10 value of a run of digit characters (most
significant first). -/
def digitsVal (ds : List Char) : Int :=
  ds.foldl (fun a c => a * 10 + digitVal c) 0

instance : DecidableEq (Except String Int)
  | .error a, .error b => decidable_of_iff (a = b) (by simp)
  | .error _, .ok _ => isFalse (by simp)
  | .ok _, .error _ => isFalse (by simp)
  | .ok a, .ok b => decidable_of_iff (a = b) (by simp)

instance : DecidableEq (Except String (Int × List Char))
  | .error a, .error b => decidable_of_iff (a = b) (by simp)
  | .error _, .ok _ => isFalse (by simp)
  | .ok _, .error _ => isFalse (by simp)
  | .ok a, .ok b => decidable_of_iff (a = b) (by simp)

/-! ## Structural lemmas about the scanner -/

/-- Every failure of the unit dispatch carries the source's one message. -/
theorem readUnit_error_eq : ∀ {s : List Char} {res n : Int} {e : String},
    readUnit res n s = .error e → e = invalidMsg := by
  intro s res n e h
  match s with
  | [] => simp [readUnit] at h; exact h.symm
  | c :: [] =>
    simp only [readUnit] at h
    split_ifs at h <;> simp_all
  | c :: c2 :: rest2 =>
    simp only [readUnit] at h
    split_ifs at h <;> simp_all

/-- A successful unit dispatch consumes at least one character. -/
theorem readUnit_ok_length : ∀ {s : List Char} {res n v : Int} {r : List Char},
    readUnit res n s = .ok (v, r) → r.length < s.length := by
  intro s res n v r h
  match s with
  | [] => simp [readUnit] at h
  | c :: [] =>
    simp only [readUnit] at h
    split_ifs at h <;> simp_all
  | c :: c2 :: rest2 =>
    simp only [readUnit] at h
    split_ifs at h <;> simp_all [List.length_cons] <;> omega

/-- The suffix a successful unit dispatch leaves is a suffix of its input. -/
theorem readUnit_ok_suffix : ∀ {s : List Char} {res n v : Int} {r : List Char},
    readUnit res n s = .ok (v, r) → List.IsSuffix r s := by
  intro s res n v r h
  match s with
  | [] => simp [readUnit] at h
  | c :: [] =>
    simp only [readUnit] at h
    split_ifs at h <;> simp_all
  | c :: c2 :: rest2 =>
    simp only [readUnit] at h
    split_ifs at h <;> simp_all <;>
      exact (List.suffix_cons _ _).trans (List.suffix_cons _ _)

/-- The digit loop never grows the remaining input. -/
theorem parseDigits_length : ∀ (s : List Char) (n : Int),
    (parseDigits n s).2.length ≤ s.length := by
  intro s
  induction s with
  | nil => intro n; simp [parseDigits]
  | cons c cs ih =>
    intro n
    simp only [parseDigits]
    split_ifs
    · exact le_trans (ih _) (Nat.le_succ _)
    · simp

/-- The digit loop leaves a suffix of its input. -/
theorem parseDigits_suffix : ∀ (s : List Char) (n : Int),
    List.IsSuffix (parseDigits n s).2 s := by
  intro s
  induction s with
  | nil => intro n; simp [parseDigits]
  | cons c cs ih =>
    intro n
    simp only [parseDigits]
    split_ifs
    · exact (ih _).trans (List.suffix_cons c cs)
    · exact List.suffix_rfl

/-- The digit loop stops only at a non-digit. -/
theorem parseDigits_stop : ∀ {s : List Char} {n : Int} {c : Char} {r : List Char},
    (parseDigits n s).2 = c :: r → isDigitChar c = false := by
  intro s
  induction s with
  | nil => intro n c r h; simp [parseDigits] at h
  | cons d ds ih =>
    intro n c r h
    simp only [parseDigits] at h
    split_ifs at h with hd
    · exact ih h
    · cases h
      simpa using hd

/-- A digit run that stops inside its input stops at the same place, with the
same accumulator, when more text is appended. -/
theorem parseDigits_append : ∀ (s : List Char) (n : Int) {c : Char} {r ys : List Char},
    (parseDigits n s).2 = c :: r →
    parseDigits n (s ++ ys) = ((parseDigits n s).1, c :: (r ++ ys)) := by
  intro s
  induction s with
  | nil => intro n c r ys h; simp [parseDigits] at h
  | cons d ds ih =>
    intro n c r ys h
    simp only [parseDigits, List.cons_append] at h ⊢
    split_ifs at h ⊢ with hd
    · exact ih _ h
    · cases h
      simp

/-- Scanning a run of digits followed by a non-digit (or the end) consumes
exactly the digits, folding them into the accumulator the way the source
does (`n = n * 10 - (c - '0')`). -/
theorem parseDigits_run : ∀ (ds : List Char) (n : Int) (rest : List Char),
    (∀ c ∈ ds, isDigitChar c = true) →
    (∀ c r, rest = c :: r → isDigitChar c = false) →
    parseDigits n (ds ++ rest) = (ds.foldl (fun a c => a * 10 - digitVal c) n, rest) := by
  intro ds
  induction ds with
  | nil =>
    intro n rest _ hrest
    match rest with
    | [] => simp [parseDigits]
    | c :: r => simp [parseDigits, hrest c r rfl]
  | cons d ds ih =>
    intro n rest hds hrest
    have hd : isDigitChar d = true := hds d (List.mem_cons_self d ds)
    simp only [List.cons_append, parseDigits, hd, if_true, List.foldl_cons]
    exact ih _ rest (fun c hc => hds c (List.mem_cons_of_mem d hc)) hrest

/-- Folding digits with `a * 10 + digitVal c` from an arbitrary start. -/
theorem foldl_digits_eq : ∀ (ds : List Char) (x : Int),
    ds.foldl (fun a c => a * 10 + digitVal c) x = x * 10 ^ ds.length + digitsVal ds := by
  intro ds
  induction ds with
  | nil => intro x; simp [digitsVal]
  | cons d ds ih =>
    intro x
    have hv : digitsVal (d :: ds) = digitVal d * 10 ^ ds.length + digitsVal ds := by
      simp only [digitsVal, List.foldl_cons, ih (0 * 10 + digitVal d)]
      ring
    simp only [List.foldl_cons, ih (x * 10 + digitVal d), hv, List.length_cons]
    ring

/-- The source's inverted-sign digit accumulation computes the negated
decimal value. -/
theorem foldl_digits_neg_eq : ∀ (ds : List Char) (x : Int),
    ds.foldl (fun a c => a * 10 - digitVal c) x = x * 10 ^ ds.length - digitsVal ds := by
  intro ds
  induction ds with
  | nil => intro x; simp [digitsVal]
  | cons d ds ih =>
    intro x
    have hv : digitsVal (d :: ds) = digitVal d * 10 ^ ds.length + digitsVal ds := by
      simp only [digitsVal, List.foldl_cons, foldl_digits_eq ds (0 * 10 + digitVal d)]
      ring
    simp only [List.foldl_cons, ih (x * 10 - digitVal d), hv, List.length_cons]
    ring

/-- Every failure of one loop iteration carries the source's one message. -/
theorem parseStep_error_eq {res : Int} {c : Char} {cs : List Char} {e : String}
    (h : parseStep res c cs = .error e) : e = invalidMsg := by
  simp only [parseStep] at h
  exact readUnit_error_eq h

/-- One successful loop iteration consumes at least one character. -/
theorem parseStep_ok_length {res : Int} {c : Char} {cs : List Char} {v : Int}
    {r : List Char} (h : parseStep res c cs = .ok (v, r)) : r.length < cs.length + 1 := by
  simp only [parseStep] at h
  have h1 := readUnit_ok_length h
  by_cases hsign : (c == '+' || c == '-') = true
  · simp only [hsign, if_true] at h1
    have h2 := parseDigits_length cs 0
    omega
  · rw [Bool.not_eq_true] at hsign
    simp only [hsign, Bool.false_eq_true, if_false] at h1
    have h2 := parseDigits_length (c :: cs) 0
    simp only [List.length_cons] at h2
    omega

/-- The suffix a successful loop iteration leaves is a suffix of its input. -/
theorem parseStep_suffix {res : Int} {c : Char} {cs : List Char} {v : Int}
    {r : List Char} (h : parseStep res c cs = .ok (v, r)) : List.IsSuffix r (c :: cs) := by
  simp only [parseStep] at h
  have h1 := readUnit_ok_suffix h
  by_cases hsign : (c == '+' || c == '-') = true
  · simp only [hsign, if_true] at h1
    exact (h1.trans (parseDigits_suffix cs 0)).trans (List.suffix_cons c cs)
  · rw [Bool.not_eq_true] at hsign
    simp only [hsign, Bool.false_eq_true, if_false] at h1
    exact h1.trans (parseDigits_suffix (c :: cs) 0)

/-! ## The iteration budget is irrelevant once it exceeds the input length -/

/-- Two sufficient budgets run the loop to the same result. -/
theorem parseLoopFuel_congr : ∀ (f1 f2 : Nat) (res acc : Int) (s : List Char),
    s.length < f1 → s.length < f2 →
    parseLoopFuel res f1 acc s = parseLoopFuel res f2 acc s := by
  intro f1
  induction f1 with
  | zero => intro f2 res acc s h1 _; omega
  | succ f1 ih =>
    intro f2 res acc s h1 h2
    match f2, s with
    | f2 + 1, [] => rfl
    | f2 + 1, c :: cs =>
      simp only [parseLoopFuel]
      cases hstep : parseStep res c cs with
      | error e => rfl
      | ok p =>
        have hlen := parseStep_ok_length hstep
        simp only [List.length_cons] at h1 h2
        exact ih _ res (acc + p.1) p.2 (by omega) (by omega)

/-- A budget above the input length never runs out. -/
theorem parseLoopFuel_isSome : ∀ (fuel : Nat) (res acc : Int) (s : List Char),
    s.length < fuel → parseLoopFuel res fuel acc s ≠ none := by
  intro fuel
  induction fuel with
  | zero => intro res acc s h; omega
  | succ fuel ih =>
    intro res acc s h
    match s with
    | [] => simp [parseLoopFuel]
    | c :: cs =>
      simp only [parseLoopFuel]
      cases hstep : parseStep res c cs with
      | error e => simp
      | ok p =>
        have hlen := parseStep_ok_length hstep
        simp only [List.length_cons] at h
        exact ih res (acc + p.1) p.2 (by omega)

/-- The loop is affine in its accumulator: running from `acc` is running
from `0` and adding `acc` to a successful result. -/
theorem parseLoopFuel_shift : ∀ (fuel : Nat) (res acc : Int) (s : List Char),
    parseLoopFuel res fuel acc s =
      Option.map (Except.map (fun w => acc + w)) (parseLoopFuel res fuel 0 s) := by
  intro fuel
  induction fuel with
  | zero => intro res acc s; rfl
  | succ fuel ih =>
    intro res acc s
    match s with
    | [] => simp [parseLoopFuel, Except.map]
    | c :: cs =>
      cases hstep : parseStep res c cs with
      | error e => simp [parseLoopFuel, hstep, Except.map]
      | ok p =>
        simp only [parseLoopFuel, hstep]
        rw [ih res (acc + p.1) p.2, ih res (0 + p.1) p.2]
        cases parseLoopFuel res fuel 0 p.2 with
        | none => simp
        | some x =>
          cases x with
          | error e => simp [Except.map]
          | ok w => simp [Except.map]; ring

/-- Every failing run of the loop carries the source's one message. -/
theorem parseLoopFuel_error_eq : ∀ (fuel : Nat) {res acc : Int} {s : List Char} {e : String},
    parseLoopFuel res fuel acc s = some (.error e) → e = invalidMsg := by
  intro fuel
  induction fuel with
  | zero => intro res acc s e h; simp [parseLoopFuel] at h
  | succ fuel ih =>
    intro res acc s e h
    match s with
    | [] => simp [parseLoopFuel] at h
    | c :: cs =>
      cases hstep : parseStep res c cs with
      | error e2 =>
        simp only [parseLoopFuel, hstep] at h
        simp at h
        rw [← h]
        exact parseStep_error_eq hstep
      | ok p =>
        simp only [parseLoopFuel, hstep] at h
        exact ih h

/-! ## Unfolding the runner -/

/-- Running the loop on the empty remainder returns the accumulator. -/
theorem runLoop_nil (res acc : Int) : runLoop res acc [] = .ok acc := rfl

/-- Running the loop on a non-empty remainder performs one iteration and
continues. -/
theorem runLoop_cons (res acc : Int) (c : Char) (cs : List Char) :
    runLoop res acc (c :: cs) =
      match parseStep res c cs with
      | .error e => .error e
      | .ok p => runLoop res (acc + p.1) p.2 := by
  unfold runLoop
  cases hstep : parseStep res c cs with
  | error e => simp [List.length_cons, parseLoopFuel, hstep]
  | ok p =>
    have hlen := parseStep_ok_length hstep
    simp only [List.length_cons, parseLoopFuel, hstep]
    rw [parseLoopFuel_congr (cs.length + 1) (p.2.length + 1) res (acc + p.1) p.2 (by omega) (by omega)]

/-- A successful run is a successful run of the fuelled loop. -/
theorem runLoop_ok_iff {res acc : Int} {s : List Char} {x : Int} :
    runLoop res acc s = .ok x ↔
      parseLoopFuel res (s.length + 1) acc s = some (.ok x) := by
  constructor
  · intro h
    cases hF : parseLoopFuel res (s.length + 1) acc s with
    | none => exact absurd hF (parseLoopFuel_isSome _ res acc s (by omega))
    | some y =>
      unfold runLoop at h
      rw [hF] at h
      simp at h
      simp [h]
  · intro h
    unfold runLoop
    rw [h]
    rfl

/-! ## Parsing a single component -/

/-- A digit character's code point lies between `'0'` and `'9'`. -/
theorem digit_bounds {c : Char} (h : isDigitChar c = true) :
    48 ≤ c.toNat ∧ c.toNat ≤ 57 := by
  simp only [isDigitChar, Bool.and_eq_true, decide_eq_true_eq] at h
  have e0 : '0'.toNat = 48 := by decide
  have e9 : '9'.toNat = 57 := by decide
  rw [e0, e9] at h
  exact h

/-- A digit is not a sign character. -/
theorem digit_no_sign {c : Char} (h : isDigitChar c = true) :
    ((c == '+') = false) ∧ ((c == '-') = false) := by
  have hb := digit_bounds h
  constructor
  · rw [beq_eq_false_iff_ne]
    intro hc
    subst hc
    revert hb
    decide
  · rw [beq_eq_false_iff_ne]
    intro hc
    subst hc
    revert hb
    decide

/-- No unit suffix starts with a digit. -/
theorem uSuffix_not_digit (u : TimeUnit) :
    ∀ c r, uSuffix u = c :: r → isDigitChar c = false := by
  cases u <;> intro c r h <;> (cases h; decide)

/-- No unit suffix is empty. -/
theorem uSuffix_ne_nil (u : TimeUnit) : uSuffix u ≠ [] := by
  cases u <;> decide

/-- The unit dispatch on exactly a unit's suffix recognises it, converts at
the unit's ratio, and consumes the whole suffix. -/
theorem readUnit_uSuffix (u : TimeUnit) (res n : Int) :
    readUnit res n (uSuffix u) = .ok (durCast n (uRat u) res, []) := by
  cases u <;> rfl

/-- The digit loop on a digit run followed by a unit suffix consumes the
digits and accumulates the negated decimal value. -/
theorem digits_unit_eval (ds : List Char) (u : TimeUnit)
    (hdig : ∀ c ∈ ds, isDigitChar c = true) :
    parseDigits 0 (ds ++ uSuffix u) = (-(digitsVal ds), uSuffix u) := by
  rw [parseDigits_run ds 0 (uSuffix u) hdig (uSuffix_not_digit u)]
  rw [foldl_digits_neg_eq]
  simp

/-- Parsing a single component — optional sign (`sg` is the signed unit it
denotes), a non-empty digit run, a unit suffix — yields the `duration_cast`
of the signed decimal value at the unit's ratio. -/
theorem parse_single (res : Int) (pre : List Char) (sg : Int) (ds : List Char) (u : TimeUnit)
    (hds : ds ≠ []) (hdig : ∀ c ∈ ds, isDigitChar c = true)
    (hpre : pre = [] ∧ sg = 1 ∨ pre = ['+'] ∧ sg = 1 ∨ pre = ['-'] ∧ sg = -1) :
    toDuration res (pre ++ ds ++ uSuffix u) =
      .ok (durCast (sg * digitsVal ds) (uRat u) res) := by
  match ds, hds with
  | d :: ds', _ =>
  have hd := hdig d (List.mem_cons_self d ds')
  have hsign := digit_no_sign hd
  have hstep0 : parseStep res d (ds' ++ uSuffix u) =
      .ok (durCast (digitsVal (d :: ds')) (uRat u) res, []) := by
    simp only [parseStep, hsign.1, hsign.2, Bool.or_self, Bool.false_eq_true, if_false]
    rw [show d :: (ds' ++ uSuffix u) = (d :: ds') ++ uSuffix u from rfl]
    rw [digits_unit_eval (d :: ds') u hdig]
    simp only [neg_neg]
    exact readUnit_uSuffix u res (digitsVal (d :: ds'))
  rcases hpre with ⟨rfl, rfl⟩ | ⟨rfl, rfl⟩ | ⟨rfl, rfl⟩
  · show runLoop res 0 (d :: (ds' ++ uSuffix u)) = _
    rw [runLoop_cons, hstep0]
    simp [runLoop_nil]
  · show runLoop res 0 ('+' :: ((d :: ds') ++ uSuffix u)) = _
    rw [runLoop_cons]
    have hstep : parseStep res '+' ((d :: ds') ++ uSuffix u) =
        .ok (durCast (digitsVal (d :: ds')) (uRat u) res, []) := by
      show readUnit res (-(parseDigits 0 ((d :: ds') ++ uSuffix u)).1)
        (parseDigits 0 ((d :: ds') ++ uSuffix u)).2 = _
      rw [digits_unit_eval (d :: ds') u hdig]
      simp only [neg_neg]
      exact readUnit_uSuffix u res (digitsVal (d :: ds'))
    rw [hstep]
    simp [runLoop_nil]
  · show runLoop res 0 ('-' :: ((d :: ds') ++ uSuffix u)) = _
    rw [runLoop_cons]
    have hstep : parseStep res '-' ((d :: ds') ++ uSuffix u) =
        .ok (durCast (-(digitsVal (d :: ds'))) (uRat u) res, []) := by
      show readUnit res (parseDigits 0 ((d :: ds') ++ uSuffix u)).1
        (parseDigits 0 ((d :: ds') ++ uSuffix u)).2 = _
      rw [digits_unit_eval (d :: ds') u hdig]
      exact readUnit_uSuffix u res (-(digitsVal (d :: ds')))
    rw [hstep]
    simp [runLoop_nil]

/-! ## Concatenation -/

/-- A non-empty suffix has the same last element as the whole list. -/
theorem suffix_getLast {l1 l2 : List Char} (h : List.IsSuffix l1 l2) (h1 : l1 ≠ []) :
    l2.getLast? = l1.getLast? := by
  obtain ⟨t, rfl⟩ := h
  rw [List.getLast?_append]
  cases hl : l1.getLast? with
  | none => exact absurd (List.getLast?_eq_none_iff.mp hl) h1
  | some x => rfl

/-- A successful unit dispatch is unchanged by appending more text — except
when it consumed a final `'m'` as minutes by reading past the end and the
appended text starts with `'s'`. -/
theorem readUnit_append {res n v : Int} : ∀ {s r B : List Char},
    readUnit res n s = .ok (v, r) →
    ¬(s = ['m'] ∧ B.head? = some 's') →
    readUnit res n (s ++ B) = .ok (v, r ++ B) := by
  intro s r B h hB
  match s with
  | [] => simp [readUnit] at h
  | c :: [] =>
    simp only [readUnit, List.cons_append, List.nil_append] at h ⊢
    split_ifs at h ⊢ <;> simp_all
    rcases h with ⟨rfl, rfl⟩
    cases B with
    | nil => rfl
    | cons b B2 =>
      have hb : ¬ b = 's' := by simpa using hB
      simp [hb]
  | c :: c2 :: rest2 =>
    simp only [readUnit, List.cons_append] at h ⊢
    split_ifs at h ⊢ <;> simp_all
    all_goals rcases h with ⟨-, rfl⟩
    all_goals simp

/-- A successful loop iteration is unchanged by appending more text, unless
its component was a final `'m'` read as minutes at the end of the input and
the appended text starts with `'s'`. -/
theorem parseStep_append {res : Int} {c : Char} {cs B : List Char} {v : Int} {r : List Char}
    (h : parseStep res c cs = .ok (v, r))
    (hcond : (c :: cs).getLast? ≠ some 'm' ∨ B.head? ≠ some 's') :
    parseStep res c (cs ++ B) = .ok (v, r ++ B) := by
  simp only [parseStep] at h ⊢
  have hb : (if (c == '+' || c == '-') = true then cs ++ B else c :: (cs ++ B)) =
      (if (c == '+' || c == '-') = true then cs else c :: cs) ++ B := by
    split_ifs <;> simp
  rw [hb]
  have hbsuf : List.IsSuffix (if (c == '+' || c == '-') = true then cs else c :: cs) (c :: cs) := by
    split_ifs
    · exact List.suffix_cons c cs
    · exact List.suffix_rfl
  generalize hbody : (if (c == '+' || c == '-') = true then cs else c :: cs) = body at h hbsuf ⊢
  cases hp : (parseDigits 0 body).2 with
  | nil => rw [hp] at h; simp [readUnit] at h
  | cons c2 r2 =>
    rw [parseDigits_append body 0 hp]
    rw [hp] at h
    apply readUnit_append h
    rintro ⟨hm, hs⟩
    have hsuf : List.IsSuffix (c2 :: r2) (c :: cs) := by
      rw [← hp]
      exact (parseDigits_suffix body 0).trans hbsuf
    rcases hcond with hc | hc
    · rw [hm] at hsuf
      obtain ⟨t, ht⟩ := hsuf
      rw [← ht, List.getLast?_concat] at hc
      exact hc rfl
    · exact hc hs

/-- Iterating from a non-empty remainder whose first iteration succeeds. -/
theorem runLoop_cons_ok {res acc : Int} {c : Char} {cs : List Char} {p : Int × List Char}
    (hstep : parseStep res c cs = .ok p) :
    runLoop res acc (c :: cs) = runLoop res (acc + p.1) p.2 := by
  rw [runLoop_cons, hstep]

/-- Iterating from a non-empty remainder whose first iteration fails. -/
theorem runLoop_cons_error {res acc : Int} {c : Char} {cs : List Char} {e : String}
    (hstep : parseStep res c cs = .error e) :
    runLoop res acc (c :: cs) = .error e := by
  rw [runLoop_cons, hstep]

/-- The runner is affine in its accumulator. -/
theorem runLoop_shift (res acc : Int) (s : List Char) :
    runLoop res acc s = Except.map (fun w => acc + w) (runLoop res 0 s) := by
  unfold runLoop
  rw [parseLoopFuel_shift (s.length + 1) res acc s]
  cases hF : parseLoopFuel res (s.length + 1) 0 s with
  | none => exact absurd hF (parseLoopFuel_isSome _ res 0 s (by omega))
  | some x => cases x <;> rfl

/-- Parsing a text that parses successfully, followed by anything, parses
the rest from the shifted accumulator — provided the first text does not
end in a bare `'m'` immediately followed by an `'s'` at the start of the
second (the one boundary at which the scanner's lookahead couples the two
texts). -/
theorem runLoop_append (A : List Char) (res acc a : Int) (B : List Char)
    (hA : runLoop res 0 A = .ok a)
    (hcond : A.getLast? ≠ some 'm' ∨ B.head? ≠ some 's') :
    runLoop res acc (A ++ B) = runLoop res (acc + a) B := by
  match A with
  | [] =>
    rw [runLoop_nil] at hA
    cases hA
    simp
  | c :: cs =>
    cases hstep : parseStep res c cs with
    | error e =>
      rw [runLoop_cons_error hstep] at hA
      cases hA
    | ok p =>
      obtain ⟨v, r⟩ := p
      rw [runLoop_cons_ok hstep] at hA
      rw [runLoop_shift res (0 + v) r] at hA
      cases hr : runLoop res 0 r with
      | error e => rw [hr] at hA; cases hA
      | ok w =>
        rw [hr] at hA
        have hw : 0 + v + w = a := by
          simpa [Except.map] using hA
        have hstepB : parseStep res c (cs ++ B) = .ok (v, r ++ B) :=
          parseStep_append hstep hcond
        rw [show (c :: cs) ++ B = c :: (cs ++ B) from rfl]
        rw [runLoop_cons_ok hstepB]
        by_cases hrnil : r = []
        · subst hrnil
          rw [runLoop_nil] at hr
          cases hr
          simp only [List.nil_append]
          rw [show acc + v = acc + a by omega]
        · have hcond2 : r.getLast? ≠ some 'm' ∨ B.head? ≠ some 's' := by
            rcases hcond with hc | hc
            · left
              rw [← suffix_getLast (parseStep_suffix hstep) hrnil]
              exact hc
            · exact Or.inr hc
          rw [runLoop_append r res (acc + v) w B hr hcond2]
          rw [show acc + v + w = acc + a by omega]
termination_by A.length
decreasing_by
  have := parseStep_ok_length hstep
  simp only [List.length_cons]
  omega

/-! ## Arithmetic facts about truncating conversion -/

/-- Each unit's tick is positive. -/
theorem uRat_pos (u : TimeUnit) : 0 < uRat u := by
  cases u <;> decide

/-- When the target tick divides the source tick, the truncating conversion
is exact: it multiplies by the ratio of the ticks. -/
theorem durCast_exact {n ru rt : Int} (hd : rt ∣ ru) (h0 : rt ≠ 0) :
    durCast n ru rt = n * (ru / rt) := by
  obtain ⟨k, rfl⟩ := hd
  rw [durCast, Int.mul_ediv_cancel_left _ h0]
  rw [show n * (rt * k) = rt * (n * k) by ring]
  exact Int.mul_tdiv_cancel_left _ h0

/-- Truncating division by non-negative divisors nests. -/
theorem tdiv_tdiv_nat (m bn cn : Nat) :
    Int.tdiv (Int.tdiv (m : Int) (bn : Int)) (cn : Int) =
      Int.tdiv (m : Int) ((bn : Int) * (cn : Int)) := by
  rw [← Int.ofNat_tdiv, ← Int.ofNat_tdiv, ← Int.ofNat_mul, ← Int.ofNat_tdiv,
    Nat.div_div_eq_div_mul]

/-- Truncating division nests: dividing by `b` and then by `c` is dividing
by `b * c` (for non-negative `b`, `c`). -/
theorem tdiv_tdiv {b c : Int} (hb : 0 ≤ b) (hc : 0 ≤ c) (a : Int) :
    Int.tdiv (Int.tdiv a b) c = Int.tdiv a (b * c) := by
  obtain ⟨bn, rfl⟩ := Int.eq_ofNat_of_zero_le hb
  obtain ⟨cn, rfl⟩ := Int.eq_ofNat_of_zero_le hc
  rcases le_or_lt 0 a with ha | ha
  · obtain ⟨m, rfl⟩ := Int.eq_ofNat_of_zero_le ha
    exact tdiv_tdiv_nat m bn cn
  · obtain ⟨m, hm⟩ := Int.eq_ofNat_of_zero_le (show (0 : Int) ≤ -a by omega)
    have haeq : a = -(m : Int) := by omega
    subst haeq
    rw [Int.neg_tdiv, Int.neg_tdiv, Int.neg_tdiv, tdiv_tdiv_nat m bn cn]

/-- Every failure of the parser carries the source's one message. -/
theorem toDuration_error_eq {res : Int} {s : List Char} {e : String}
    (h : toDuration res s = .error e) : e = invalidMsg := by
  unfold toDuration runLoop at h
  cases hF : parseLoopFuel res (s.length + 1) 0 s with
  | none =>
    rw [hF] at h
    simp at h
    exact h.symm
  | some x =>
    rw [hF] at h
    simp at h
    rw [h] at hF
    exact parseLoopFuel_error_eq _ hF

/-! ## The claims -/

/-- C1: for any valid single component `"<N><unit>"` with `unit` one of
`ns`, `us`, `ms`, `s`, `m`, `h` and `N` a non-negative integer literal (a
non-empty run of decimal digits), parsing at a target resolution whose tick
divides the unit's tick (equal or finer) yields exactly `N` times the ratio
of the unit's tick to the target's — e.g. `"1s"` at millisecond resolution
yields 1000, using the fixed ratios embodied in `uRat`. -/
theorem C1_single_component_conversion (u t : TimeUnit) (ds : List Char)
    (hds : ds ≠ []) (hdig : ∀ c ∈ ds, isDigitChar c = true)
    (hfine : uRat t ∣ uRat u) :
    toDuration (uRat t) (ds ++ uSuffix u) = .ok (digitsVal ds * (uRat u / uRat t)) := by
  have h := parse_single (uRat t) [] 1 ds u hds hdig (Or.inl ⟨rfl, rfl⟩)
  rw [List.nil_append] at h
  rw [h, durCast_exact hfine (by have := uRat_pos t; omega), one_mul]

/-- Witness for C1: `"1s"` parsed at millisecond resolution yields
`1 * (10⁹ / 10⁶) = 1000`. -/
theorem C1_witness :
    toDuration (uRat TimeUnit.ms) (['1'] ++ uSuffix TimeUnit.sec) =
      .ok (digitsVal ['1'] * (uRat TimeUnit.sec / uRat TimeUnit.ms)) :=
  C1_single_component_conversion TimeUnit.sec TimeUnit.ms ['1'] (by decide) (by decide)
    ⟨1000, by decide⟩

/-- C2 (claim: a component with no digits after its optional sign must fail
with the malformed-input error).  What the code actually does: the digit
loop accepts a zero-length digit run with accumulated value `0`, so `"s"`,
`"ns"`, `"h"` and `"+m"` all parse successfully to a zero duration instead
of failing. -/
theorem C2_no_digit_component_accepted :
    toDuration secRat ['s'] = .ok 0 ∧
    toDuration secRat ['n', 's'] = .ok 0 ∧
    toDuration secRat ['h'] = .ok 0 ∧
    toDuration secRat ['+', 'm'] = .ok 0 := by
  decide

/-- C8: the empty input is valid at every target resolution and yields the
zero duration, not a failure. -/
theorem C8_empty_input_zero (res : Int) : toDuration res [] = .ok 0 := rfl

/-- C3 counterexample: `"1m"` and `"s"` both parse successfully (to 1 minute
and 0), but their concatenation `"1ms"` parses to 1 millisecond, not to the
sum — concatenation is not additive for arbitrary successfully-parsing
texts. -/
theorem C3_counterexample :
    toDuration msRat ['1', 'm'] = .ok 60000 ∧
    toDuration msRat ['s'] = .ok 0 ∧
    toDuration msRat (['1', 'm'] ++ ['s']) = .ok 1 ∧
    ¬ toDuration msRat (['1', 'm'] ++ ['s']) = .ok (60000 + 0) := by
  decide

/-- C3 (amended): concatenation is additive — parsing `A ++ B` yields the
sum of parsing `A` and parsing `B` at the same target resolution, regardless
of sign, ordering or repeated units — provided `A` does not end in `'m'`
with `B` beginning in `'s'` (the one boundary where the scanner's
minute/millisecond lookahead joins the two texts into a single `"ms"`
component). -/
theorem C3_concatenation_additive (res : Int) (A B : List Char) (a b : Int)
    (hA : toDuration res A = .ok a) (hB : toDuration res B = .ok b)
    (hcond : A.getLast? ≠ some 'm' ∨ B.head? ≠ some 's') :
    toDuration res (A ++ B) = .ok (a + b) := by
  have happ := runLoop_append A res 0 a B hA hcond
  show runLoop res 0 (A ++ B) = _
  rw [happ, runLoop_shift res (0 + a) B]
  rw [show runLoop res 0 B = .ok b from hB]
  simp [Except.map]

/-- Witness for C3: `"1h" ++ "1h"` parses to `1 + 1 = 2` hours. -/
theorem C3_witness : toDuration hourRat (['1', 'h'] ++ ['1', 'h']) = .ok (1 + 1) :=
  C3_concatenation_additive hourRat ['1', 'h'] ['1', 'h'] 1 1 (by decide) (by decide)
    (by decide)

/-- C4: `m` followed by `s` yields milliseconds; `m` not followed by `s`
yields minutes, with the lookahead character left unconsumed as the start of
the next component (the one-character backtrack).  In particular `"1m"` is
1 minute, `"1ms"` is 1 millisecond, and `"1m30s"` is 1 minute plus 30
seconds (= 90 s). -/
theorem C4_minute_millisecond_disambiguation :
    (∀ (res n : Int) (rest : List Char),
        readUnit res n ('m' :: 's' :: rest) = .ok (durCast n msRat res, rest)) ∧
    (∀ (res n : Int) (c2 : Char) (rest : List Char), c2 ≠ 's' →
        readUnit res n ('m' :: c2 :: rest) = .ok (durCast n minRat res, c2 :: rest)) ∧
    toDuration minRat ['1', 'm'] = .ok 1 ∧
    toDuration msRat ['1', 'm', 's'] = .ok 1 ∧
    toDuration secRat ['1', 'm', '3', '0', 's'] = .ok 90 := by
  refine ⟨?_, ?_, by decide, by decide, by decide⟩
  · intro res n rest
    simp [readUnit]
  · intro res n c2 rest hc2
    simp [readUnit, hc2]

/-- Witness for C4: the minutes branch with a non-`'s'` lookahead leaves the
lookahead character in the remaining input. -/
theorem C4_witness :
    readUnit 1 5 ['m', 'x'] = .ok (durCast 5 minRat 1, ['x']) :=
  C4_minute_millisecond_disambiguation.2.1 1 5 'x' [] (by decide)

/-- C5: a component's raw count is the decimal value of its digit run,
negated exactly when a leading `'-'` is present (`'+'` or no sign means
positive) — the source's inverted-sign accumulation is observationally
standard sign-magnitude.  In particular `"1h-1h"` yields zero at every
resolution and `"-1s"` at second resolution yields `-1`. -/
theorem C5_sign_handling :
    (∀ (res : Int) (ds : List Char) (u : TimeUnit), ds ≠ [] →
      (∀ c ∈ ds, isDigitChar c = true) →
      toDuration res (ds ++ uSuffix u) = .ok (durCast (digitsVal ds) (uRat u) res) ∧
      toDuration res (['+'] ++ ds ++ uSuffix u) = .ok (durCast (digitsVal ds) (uRat u) res) ∧
      toDuration res (['-'] ++ ds ++ uSuffix u) = .ok (durCast (-digitsVal ds) (uRat u) res)) ∧
    (∀ res : Int, toDuration res ['1', 'h', '-', '1', 'h'] = .ok 0) ∧
    toDuration secRat ['-', '1', 's'] = .ok (-1) := by
  refine ⟨?_, ?_, by decide⟩
  · intro res ds u hds hdig
    refine ⟨?_, ?_, ?_⟩
    · have h := parse_single res [] 1 ds u hds hdig (Or.inl ⟨rfl, rfl⟩)
      simpa using h
    · have h := parse_single res ['+'] 1 ds u hds hdig (Or.inr (Or.inl ⟨rfl, rfl⟩))
      simpa using h
    · have h := parse_single res ['-'] (-1) ds u hds hdig (Or.inr (Or.inr ⟨rfl, rfl⟩))
      simpa using h
  · intro res
    have hA : toDuration res ['1', 'h'] =
        .ok (durCast (1 * digitsVal ['1']) (uRat TimeUnit.hour) res) :=
      parse_single res [] 1 ['1'] TimeUnit.hour (by decide) (by decide) (Or.inl ⟨rfl, rfl⟩)
    have hB : toDuration res ['-', '1', 'h'] =
        .ok (durCast (-1 * digitsVal ['1']) (uRat TimeUnit.hour) res) :=
      parse_single res ['-'] (-1) ['1'] TimeUnit.hour (by decide) (by decide)
        (Or.inr (Or.inr ⟨rfl, rfl⟩))
    have happ := runLoop_append ['1', 'h'] res 0
      (durCast (1 * digitsVal ['1']) (uRat TimeUnit.hour) res) ['-', '1', 'h'] hA
      (Or.inl (by decide))
    have hsum : durCast (digitsVal ['1']) (uRat TimeUnit.hour) res +
        durCast (-digitsVal ['1']) (uRat TimeUnit.hour) res = 0 := by
      simp only [durCast]
      rw [show -digitsVal ['1'] * uRat TimeUnit.hour =
        -(digitsVal ['1'] * uRat TimeUnit.hour) by ring]
      rw [Int.neg_tdiv]
      omega
    show runLoop res 0 (['1', 'h'] ++ ['-', '1', 'h']) = .ok 0
    rw [happ, runLoop_shift res _ ['-', '1', 'h']]
    rw [show runLoop res 0 ['-', '1', 'h'] = .ok (durCast (-1 * digitsVal ['1'])
      (uRat TimeUnit.hour) res) from hB]
    simp [Except.map]
    omega

/-- Witness for C5: `"-1s"` at nanosecond resolution is `-10⁹` ticks. -/
theorem C5_witness :
    toDuration 1 (['-'] ++ ['1'] ++ uSuffix TimeUnit.sec) =
      .ok (durCast (-digitsVal ['1']) (uRat TimeUnit.sec) 1) :=
  ((C5_sign_handling.1 1 ['1'] TimeUnit.sec (by decide) (by decide)).2.2)

/-- C6 counterexample: `"500ms500ms"` parses to 1000 at millisecond
resolution and to 0 at second resolution (each component truncates to 0
seconds separately), but the claim demands `0 = 1000.tdiv 1000 = 1`. -/
theorem C6_counterexample :
    toDuration msRat ['5', '0', '0', 'm', 's', '5', '0', '0', 'm', 's'] = .ok 1000 ∧
    toDuration secRat ['5', '0', '0', 'm', 's', '5', '0', '0', 'm', 's'] = .ok 0 ∧
    secRat = 1000 * msRat ∧
    ¬ (0 : Int) = Int.tdiv 1000 1000 := by
  decide

/-- C6 (amended): for a text that is a single component (optional sign,
digit run, unit), parsing at the coarse resolution `k * res1` equals the
truncating division by `k` of the parse at the fine resolution `res1`.  For
multi-component texts the identity can fail, because the code truncates each
component separately while the claim truncates the accumulated total. -/
theorem C6_resolution_truncation (res1 k : Int) (h1 : 0 < res1) (hk : 0 < k)
    (pre : List Char) (sg : Int) (ds : List Char) (u : TimeUnit)
    (hds : ds ≠ []) (hdig : ∀ c ∈ ds, isDigitChar c = true)
    (hpre : pre = [] ∧ sg = 1 ∨ pre = ['+'] ∧ sg = 1 ∨ pre = ['-'] ∧ sg = -1)
    (x : Int) (hx : toDuration res1 (pre ++ ds ++ uSuffix u) = .ok x) :
    toDuration (k * res1) (pre ++ ds ++ uSuffix u) = .ok (Int.tdiv x k) := by
  rw [parse_single res1 pre sg ds u hds hdig hpre] at hx
  cases hx
  rw [parse_single (k * res1) pre sg ds u hds hdig hpre]
  congr 1
  rw [durCast, durCast, tdiv_tdiv (le_of_lt h1) (le_of_lt hk), mul_comm res1 k]

/-- Witness for C6: `"500ms"` is 500 at millisecond resolution and
`500.tdiv 1000 = 0` at second resolution. -/
theorem C6_witness :
    toDuration (1000 * msRat) (([] : List Char) ++ ['5', '0', '0'] ++ uSuffix TimeUnit.ms) =
      .ok (Int.tdiv 500 1000) :=
  C6_resolution_truncation msRat 1000 (by decide) (by decide) [] 1 ['5', '0', '0']
    TimeUnit.ms (by decide) (by decide) (Or.inl ⟨rfl, rfl⟩) 500 (by decide)

/-- C7: parsing fails, with the single malformed-input error, whenever the
unit suffix is invalid: an unrecognised unit first character (`"12z"`,
`"invalid"`), an `n` or `u` not followed by `s` (also at the end of the
input), and only the exact lowercase suffixes are recognised (`"1S"`,
`"1Ns"` fail); moreover every failure of the parser carries the one
malformed-input message. -/
theorem C7_invalid_unit_fails :
    (∀ (res n : Int) (c : Char) (rest : List Char),
        ¬(c = 'n' ∨ c = 'u' ∨ c = 'm' ∨ c = 's' ∨ c = 'h') →
        readUnit res n (c :: rest) = .error invalidMsg) ∧
    (∀ (res n : Int) (c2 : Char) (rest : List Char), c2 ≠ 's' →
        readUnit res n ('n' :: c2 :: rest) = .error invalidMsg) ∧
    (∀ (res n : Int) (c2 : Char) (rest : List Char), c2 ≠ 's' →
        readUnit res n ('u' :: c2 :: rest) = .error invalidMsg) ∧
    (∀ res n : Int, readUnit res n ['n'] = .error invalidMsg) ∧
    (∀ res n : Int, readUnit res n ['u'] = .error invalidMsg) ∧
    (∀ (res : Int) (s : List Char) (e : String),
        toDuration res s = .error e → e = invalidMsg) ∧
    toDuration secRat ['1', '2', 'z'] = .error invalidMsg ∧
    toDuration secRat ['i', 'n', 'v', 'a', 'l', 'i', 'd'] = .error invalidMsg ∧
    toDuration secRat ['1', 'S'] = .error invalidMsg ∧
    toDuration nsRat ['1', 'N', 's'] = .error invalidMsg := by
  refine ⟨?_, ?_, ?_, ?_, ?_, ?_, by decide, by decide, by decide, by decide⟩
  · intro res n c rest hc
    push_neg at hc
    obtain ⟨h1, h2, h3, h4, h5⟩ := hc
    simp [readUnit, h1, h2, h3, h4, h5]
  · intro res n c2 rest hc2
    simp [readUnit, hc2]
  · intro res n c2 rest hc2
    simp [readUnit, hc2]
  · intro res n
    simp [readUnit]
  · intro res n
    simp [readUnit]
  · intro res s e h
    exact toDuration_error_eq h

/-- Witness for C7: `'z'` is not a unit character, so the dispatch fails. -/
theorem C7_witness : readUnit 1 0 ['z'] = .error invalidMsg :=
  C7_invalid_unit_fails.1 1 0 'z' [] (by decide)

/-- C9: parsing is a bounded computation — every successful loop iteration
strictly shrinks the remaining input (the minute/millisecond backtrack is
immediately followed by an advance), an iteration budget of `length + 1`
therefore never runs out, and `toDuration` is exactly the loop run on that
budget: at most `length + 1` iterations on any finite input, each doing
bounded work. -/
theorem C9_termination_linear :
    (∀ (res : Int) (c : Char) (cs : List Char) (v : Int) (r : List Char),
        parseStep res c cs = .ok (v, r) → r.length < (c :: cs).length) ∧
    (∀ (res acc : Int) (s : List Char),
        parseLoopFuel res (s.length + 1) acc s ≠ none) ∧
    (∀ (res : Int) (s : List Char),
        toDuration res s = (parseLoopFuel res (s.length + 1) 0 s).getD (.error invalidMsg)) := by
  refine ⟨?_, ?_, ?_⟩
  · intro res c cs v r h
    have := parseStep_ok_length h
    simpa using this
  · intro res acc s
    exact parseLoopFuel_isSome _ res acc s (by omega)
  · intro res s
    rfl

/-- Witness for C9: the iteration on `"1s"` consumes both characters. -/
theorem C9_witness : ([] : List Char).length < ('1' :: ['s']).length :=
  C9_termination_linear.1 1 '1' ['s'] 1000000000 [] (by decide)

/-- C10: the unit-suffix dispatch and the two-character lookahead read the
end position without a bounds check.  In the embedding `toDurationPad` where
that out-of-bounds read returns a chosen pad character, the read is
reachable on inputs ending mid-component (`"1m"`, trailing digits `"1"`, a
bare sign `"+"`), and the result depends on what the read returns: with a
NUL pad (what the C++ reads on a `std::string` buffer) `"1m"` is 1 minute
and `"1"`, `"+"` fail, while with an `'s'` pad `"1m"` becomes 1 millisecond
and `"1"`, `"+"` parse.  The primary embedding `toDuration` agrees with the
NUL behaviour. -/
theorem C10_unchecked_end_read :
    toDuration minRat ['1', 'm'] = .ok 1 ∧
    toDurationPad (Char.ofNat 0) msRat ['1', 'm'] = .ok 60000 ∧
    toDurationPad 's' msRat ['1', 'm'] = .ok 1 ∧
    toDurationPad (Char.ofNat 0) secRat ['1'] = .error invalidMsg ∧
    toDurationPad 's' secRat ['1'] = .ok 1 ∧
    toDurationPad (Char.ofNat 0) secRat ['+'] = .error invalidMsg ∧
    toDurationPad 's' secRat ['+'] = .ok 0 := by
  decide


end ChronoUtility
